import Mathlib

/-! AutoMUSic: note parsing and tone-to-frequency conversion.

A shallow embedding of `src/impl/notes.cpp` (`parseTone`, `tone2freq`) and of the
declarations of `src/incl/AMUS_notes.hpp` it uses.

* A `std::string` is a `List Char`; every `Char` stands for one C++ `char`.
* A `Note *` is an `Option Note` (`none` is the `NULL` pointer).
* `s[i]` is defined for `i ≤ s.size()` (the position `s.size()` holds the NUL
  character) and undefined beyond; `strAt` returns `none` for an undefined read.
* `tone2freq` returns a `float`; the embedding keeps the returned expression
  (`-1`, or `440.000 * pow(2, (key - 48.) / 12.)` for the computed `key`).
  `Ret.IsReal` reads the expression as an exact real number; `Ret.Returns` gives the
  `float` the call returns, the expression narrowed to `float` at the `return`.
* A plain `char` in an `int` expression has its signed value (`charToInt`).
-/

namespace AutoMUSic

/-! ## Declarations of `AMUS_notes.hpp` -/

/-- The macro `INVALID_CHAR` of the header. -/
def INVALID_CHAR : Char := 'x'

/-- The class `Note`: one public `std::string` member `tone`. -/
structure Note where
  tone : List Char
  deriving DecidableEq, Repr

/-! ## `std::string` operations used by the source -/

/-- The character that `s[s.size()]` refers to. -/
def NUL : Char := Char.ofNat 0

/-- The read `s[i]` of a `std::string`: the character at `i` when `i < s.size()`, the NUL
character when `i = s.size()`, and undefined (`none`) when `i > s.size()`. -/
def strAt (s : List Char) (i : Nat) : Option Char :=
  if i < s.length then some (s.getD i NUL)
  else if i = s.length then some NUL
  else none

/-- The call `s.find_first_of(chars)`: the least position of `s` holding a character of
`chars`, and `none` for `string::npos`. -/
def find_first_of : List Char → List Char → Option Nat
  | [], _ => none
  | c :: cs, chars =>
    if c ∈ chars then some 0
    else
      match find_first_of cs chars with
      | none => none
      | some i => some (i + 1)

/-- The string literal `"ABCDEFG"` searched for by `parseTone`. -/
def letterChars : List Char := ['A', 'B', 'C', 'D', 'E', 'F', 'G']

/-! ## `parseTone` -/

/-- What a call of `parseTone` does: it reads outside the string (`undefined`), returns
`NULL` (`null`), or returns the pointer to a `Note` (`note`). -/
inductive ParseResult where
  | undefined
  | null
  | note (n : Note)
  deriving DecidableEq, Repr

/-- Lines 91-113 of `parseTone`: the `switch (accidental1)` that validates the two
accidental candidates. -/
def checkAccidentals (accidental1 accidental2 : Char) : Char × Char :=
  if accidental1 = 'b' then
    (accidental1, if accidental2 ≠ 'b' then INVALID_CHAR else accidental2)
  else if accidental1 = 'n' then
    (accidental1, INVALID_CHAR)
  else if accidental1 = '#' then
    (accidental1, if accidental2 ≠ '#' then INVALID_CHAR else accidental2)
  else
    ('n', INVALID_CHAR)

/-- Lines 115-124 of `parseTone`: allocate a `Note` when the pointer is `NULL`, then append
the letter, the octave, the first accidental and, unless it is `INVALID_CHAR`, the second
accidental to the note's tone. -/
def buildNote (n : Option Note) (letter octave accidental1 accidental2 : Char) : Note :=
  let n : Note := match n with
    | none => { tone := [] }
    | some n => n
  let n : Note := { tone := n.tone ++ [letter] }
  let n : Note := { tone := n.tone ++ [octave] }
  let n : Note := { tone := n.tone ++ [accidental1] }
  if accidental2 ≠ INVALID_CHAR then { tone := n.tone ++ [accidental2] } else n

/-- Lines 71-89 of `parseTone`: the reads of the two accidental candidates, by the size of
the string. -/
def readAccidentals (s : List Char) (letter_pos : Nat) : Option (Char × Char) :=
  if s.length ≥ letter_pos + 3 then
    match strAt s (letter_pos + 2), strAt s (letter_pos + 3) with
    | some accidental1, some accidental2 => some (accidental1, accidental2)
    | _, _ => none
  else if s.length = letter_pos + 2 then
    match strAt s (letter_pos + 2) with
    | some accidental1 => some (accidental1, INVALID_CHAR)
    | none => none
  else
    some ('n', INVALID_CHAR)

/-- The function `parseTone(Note *n, string s)`. The comparisons `octave < 48` and
`octave > 56` are on the character code; a `char` above 127 fails one of the two whether
`char` is signed or not. -/
def parseTone (n : Option Note) (s : List Char) : ParseResult :=
  match find_first_of s letterChars with
  | none => .null
  | some letter_pos =>
    match strAt s letter_pos with
    | none => .undefined
    | some letter =>
      if s.length ≥ letter_pos + 1 then
        match strAt s (letter_pos + 1) with
        | none => .undefined
        | some octave =>
          if octave.toNat < 48 ∨ octave.toNat > 56 then .null
          else
            match readAccidentals s letter_pos with
            | none => .undefined
            | some (accidental1, accidental2) =>
              let acc := checkAccidentals accidental1 accidental2
              .note (buildNote n letter octave acc.1 acc.2)
      else .null

/-! ## `tone2freq` -/

/-- The expression a call of `tone2freq` returns: `-1` (`err`), or
`440.000 * pow(2, (key - 48.) / 12.)` for the computed `key` (`freq key`). -/
inductive Ret where
  | err
  | freq (key : Int)
  deriving DecidableEq, Repr

/-- The real number a returned expression stands for. -/
def Ret.IsReal : Ret → ℝ → Prop
  | .err, x => x = -1
  | .freq key, x => x = 440 * (2 : ℝ) ^ (((key : ℝ) - 48) / 12)

/-- A real number that is a finite value of the type `float` (IEEE-754 binary32): a
mantissa of at most 24 bits times a power of 2 with an exponent from −149 to 104. -/
def IsFloat (f : ℝ) : Prop :=
  ∃ m e : Int, |m| < 16777216 ∧ -149 ≤ e ∧ e ≤ 104 ∧ f = (m : ℝ) * (2 : ℝ) ^ e

/-- The finitely many pairs of a mantissa and an exponent of a `float`. -/
@[irreducible]
def floatCodes : Finset (Int × Int) :=
  Finset.Icc (-16777215 : Int) 16777215 ×ˢ Finset.Icc (-149 : Int) 104

/-- The conversion of the `double` value `d` to the return type `float`: `f` is a `float`
nearest to `d`. -/
def NarrowsTo (d f : ℝ) : Prop :=
  IsFloat f ∧ ∀ g, IsFloat g → |d - f| ≤ |d - g|

/-- The `float` a call of `tone2freq` returns, as a real number. The error return is −1.
A frequency return is the narrowing to `float` of the `double` value `d` computed for
`440.000 * pow(2, (key - 48.) / 12.)`; of `d` the embedding assumes only that it lies
within a factor 2 of the exact value. -/
def Ret.Returns : Ret → ℝ → Prop
  | .err, f => f = -1
  | .freq key, f =>
    ∃ d : ℝ, 440 * (2 : ℝ) ^ (((key : ℝ) - 48) / 12) / 2 ≤ d ∧
      d ≤ 2 * (440 * (2 : ℝ) ^ (((key : ℝ) - 48) / 12)) ∧ NarrowsTo d f

/-- The value of a plain `char` in an `int` expression. Plain `char` is signed on the
targets of this program (x86 and Apple ARM; the other source file reads a file below
`/Users`), so a byte above 127 is negative. -/
def charToInt (c : Char) : Int :=
  if c.toNat % 256 < 128 then ((c.toNat % 256 : Nat) : Int)
  else ((c.toNat % 256 : Nat) : Int) - 256

/-- Lines 169-195 of `tone2freq`: the `switch (tone[0])` setting `key` to the letter in the
0th octave; `none` is the `default: return -1`. -/
def letterKey (c : Char) : Option Int :=
  if c = 'A' then some 0
  else if c = 'B' then some 2
  else if c = 'C' then some (-9)
  else if c = 'D' then some (-7)
  else if c = 'E' then some (-5)
  else if c = 'F' then some (-4)
  else if c = 'G' then some (-2)
  else none

/-- Lines 201-215 of `tone2freq`: the first `switch (tone[2])`; `none` is the
`default: return -1`. -/
def firstAccidental (key : Int) (c : Char) : Option Int :=
  if c = 'b' then some (key - 1)
  else if c = 'n' then some key
  else if c = '#' then some (key + 1)
  else none

/-- Lines 217-231 of `tone2freq`: the second `switch (tone[2])`, run when the tone has 4
characters; `none` is the `default: return -1`. -/
def secondAccidental (key : Int) (c : Char) : Option Int :=
  if c = 'b' then some (key - 1)
  else if c = '#' then some (key + 1)
  else none

/-- The function `tone2freq(Note *n)`. The three reads `tone[0]`, `tone[1]`, `tone[2]`
follow the test `tone.size() < 3`, so they are inside the string. In `tone[1] - 48` the
`char` is promoted to `int` with its sign. The line that prints `key + 1` has no effect on
the result and is left out. -/
def tone2freq (n : Option Note) : Ret :=
  match n with
  | none => .err
  | some note =>
    let tone := note.tone
    if tone.length < 3 then .err
    else
      match letterKey (tone.getD 0 NUL) with
      | none => .err
      | some key =>
        let octave : Int := charToInt (tone.getD 1 NUL) - 48
        let key := key + 12 * octave
        match firstAccidental key (tone.getD 2 NUL) with
        | none => .err
        | some key =>
          if tone.length = 4 then
            match secondAccidental key (tone.getD 2 NUL) with
            | none => .err
            | some key => .freq key
          else .freq key

/-! ## Spec-side vocabulary -/

/-- The first character of `s` from `{A..G}` is `L`, at position `p`. -/
def FirstLetterAt (s : List Char) (p : Nat) (L : Char) : Prop :=
  s[p]? = some L ∧ L ∈ letterChars ∧ ∀ c ∈ s.take p, c ∉ letterChars

instance (s : List Char) (p : Nat) (L : Char) : Decidable (FirstLetterAt s p L) := by
  unfold FirstLetterAt; infer_instance

/-- The character `O` is one of the digits `'0'..'8'`. -/
def IsOctaveDigit (O : Char) : Prop := O ∈ ['0', '1', '2', '3', '4', '5', '6', '7', '8']

instance (O : Char) : Decidable (IsOctaveDigit O) := by
  unfold IsOctaveDigit; infer_instance

/-- The semitone offset of a letter as the specification tabulates it:
A=0, B=2, C=−9, D=−7, E=−5, F=−4, G=−2. -/
def specOffset (L : Char) : Int :=
  if L = 'A' then 0 else if L = 'B' then 2 else if L = 'C' then -9
  else if L = 'D' then -7 else if L = 'E' then -5 else if L = 'F' then -4
  else if L = 'G' then -2 else 0

/-- The adjustment of an accidental as the specification gives it:
flat −1, natural 0, sharp +1. -/
def specAdj (a : Char) : Int :=
  if a = 'b' then -1 else if a = '#' then 1 else 0

/-- The accidental characters `b`, `n`, `#`. -/
def accidentalChars : List Char := ['b', 'n', '#']

/-- The condition under which the specification has `tone2freq` return `-1`: the Note is
null, or its tone has fewer than 3 characters, or its first character is not in `{A..G}`,
or its third character is not in `{b,n,#}`, or the tone has exactly 4 characters and its
third character is `'n'`. -/
def ToneRejected : Option Note → Prop
  | none => True
  | some note =>
    note.tone.length < 3 ∨ (∀ L ∈ letterChars, note.tone[0]? ≠ some L) ∨
      (∀ a ∈ accidentalChars, note.tone[2]? ≠ some a) ∨
      (note.tone.length = 4 ∧ note.tone[2]? = some 'n')

instance (n : Option Note) : Decidable (ToneRejected n) := by
  cases n <;> unfold ToneRejected <;> infer_instance

/-- The accidental forms a tone can end in: `b`, `n`, `#`, `bb`, `##`. -/
def accidentalForms : List (List Char) := [['b'], ['n'], ['#'], ['b', 'b'], ['#', '#']]

/-- The substring `s.substr(pos, len)`: the characters of `s` from position `pos` on, at
most `len` of them. -/
def substr (s : List Char) (pos len : Nat) : List Char := (s.drop pos).take len

/-- Two Notes convert to the same key index, and neither conversion fails. -/
def SameKey (n1 n2 : Option Note) : Prop :=
  tone2freq n1 ≠ .err ∧ tone2freq n1 = tone2freq n2

instance (n1 n2 : Option Note) : Decidable (SameKey n1 n2) := by
  unfold SameKey; infer_instance

/-- Both Notes convert, and the key index of the first is below the key index of the
second. -/
def KeyLt (n1 n2 : Option Note) : Prop :=
  match tone2freq n1, tone2freq n2 with
  | .freq k1, .freq k2 => k1 < k2
  | _, _ => False

instance (n1 n2 : Option Note) : Decidable (KeyLt n1 n2) := by
  unfold KeyLt; split <;> infer_instance

/-! ## Lemmas on the string operations -/

theorem strAt_of_getElem? {s : List Char} {i : Nat} {c : Char} (h : s[i]? = some c) :
    strAt s i = some c := by
  have hlt : i < s.length := by
    by_contra hge
    have hnone : s[i]? = none := List.getElem?_eq_none (Nat.le_of_not_lt hge)
    rw [hnone] at h
    exact Option.noConfusion h
  have hg : s[i]? = some (s[i]) := List.getElem?_eq_getElem hlt
  have hc : s[i] = c := by
    rw [hg] at h
    exact Option.some.inj h
  simp [strAt, hlt, List.getD, hg, hc]

theorem strAt_of_le {s : List Char} {i : Nat} (h : i ≤ s.length) :
    strAt s i = some (s[i]?.getD NUL) := by
  rcases Nat.lt_or_eq_of_le h with hlt | heq
  · simp [strAt, hlt, List.getD]
  · subst heq
    simp [strAt]

theorem strAt_isSome_iff (s : List Char) (i : Nat) :
    (strAt s i).isSome = true ↔ i ≤ s.length := by
  unfold strAt
  by_cases h1 : i < s.length
  · simp [h1, Nat.le_of_lt h1]
  · by_cases h2 : i = s.length
    · simp [h2]
    · simp only [h1, h2, if_false]
      constructor
      · intro h
        exact Bool.noConfusion h
      · intro h
        omega

theorem length_of_getElem? {s : List Char} {i : Nat} {c : Char} (h : s[i]? = some c) :
    i < s.length := by
  by_contra hge
  have hnone : s[i]? = none := List.getElem?_eq_none (Nat.le_of_not_lt hge)
  rw [hnone] at h
  exact Option.noConfusion h

theorem find_first_of_none_iff (s chars : List Char) :
    find_first_of s chars = none ↔ ∀ c ∈ s, c ∉ chars := by
  induction s with
  | nil => simp [find_first_of]
  | cons c cs ih =>
    unfold find_first_of
    by_cases hc : c ∈ chars
    · simp [hc]
    · simp only [hc, if_false, List.mem_cons, forall_eq_or_imp, not_false_eq_true, true_and]
      rw [← ih]
      cases find_first_of cs chars <;> simp

theorem find_first_of_some_iff (s chars : List Char) (p : Nat) :
    find_first_of s chars = some p ↔
      (∃ c, s[p]? = some c ∧ c ∈ chars) ∧ ∀ i c, i < p → s[i]? = some c → c ∉ chars := by
  induction s generalizing p with
  | nil => simp [find_first_of]
  | cons d ds ih =>
    unfold find_first_of
    by_cases hd : d ∈ chars
    · simp only [hd, if_true, Option.some.injEq]
      constructor
      · intro h
        subst h
        exact ⟨⟨d, by simp, hd⟩, fun i c hi => absurd hi (Nat.not_lt_zero i)⟩
      · rintro ⟨_, hmin⟩
        rcases Nat.eq_zero_or_pos p with h0 | hpos
        · exact h0.symm
        · exact absurd hd (hmin 0 d hpos (by simp))
    · simp only [hd, if_false]
      cases p with
      | zero =>
        constructor
        · intro h
          cases hf : find_first_of ds chars <;> rw [hf] at h <;> simp at h
        · rintro ⟨⟨c, hc, hmem⟩, _⟩
          simp at hc
          subst hc
          exact absurd hmem hd
      | succ q =>
        have ihq := ih q
        constructor
        · intro h
          have hq : find_first_of ds chars = some q := by
            cases hf : find_first_of ds chars <;> rw [hf] at h <;> simp at h
            rw [h]
          obtain ⟨⟨c, hc, hmem⟩, hmin⟩ := ihq.mp hq
          refine ⟨⟨c, by simpa using hc, hmem⟩, ?_⟩
          intro i c hi hic
          cases i with
          | zero =>
            simp at hic
            subst hic
            exact hd
          | succ j =>
            exact hmin j c (Nat.lt_of_succ_lt_succ hi) (by simpa using hic)
        · rintro ⟨⟨c, hc, hmem⟩, hmin⟩
          have hq : find_first_of ds chars = some q :=
            ihq.mpr ⟨⟨c, by simpa using hc, hmem⟩,
              fun j c hj hjc => hmin (j + 1) c (Nat.succ_lt_succ hj) (by simpa using hjc)⟩
          simp [hq]

theorem find_first_of_of_first {s : List Char} {p : Nat} {L : Char}
    (h : FirstLetterAt s p L) : find_first_of s letterChars = some p :=
  (find_first_of_some_iff s letterChars p).mpr ⟨⟨L, h.1, h.2.1⟩, fun i c hi hic =>
    h.2.2 c (List.mem_iff_getElem?.mpr ⟨i, by rw [List.getElem?_take_of_lt hi]; exact hic⟩)⟩

theorem octave_ok_iff (O : Char) : ¬ (O.toNat < 48 ∨ O.toNat > 56) ↔ IsOctaveDigit O := by
  constructor
  · intro h
    have hO : O = Char.ofNat O.toNat := (Char.ofNat_toNat O).symm
    have h1 : 48 ≤ O.toNat := by omega
    have h2 : O.toNat ≤ 56 := by omega
    rw [hO]
    generalize O.toNat = k at h1 h2
    interval_cases k <;> decide
  · intro h
    simp only [IsOctaveDigit, List.mem_cons, List.mem_singleton, List.not_mem_nil,
      or_false] at h
    rcases h with h | h | h | h | h | h | h | h | h <;> subst h <;> decide

/-! ## Lemmas on `parseTone` -/

theorem readAccidentals_eq {s : List Char} {p : Nat} (h : p + 2 ≤ s.length) :
    readAccidentals s p =
      some (s[p + 2]?.getD NUL,
        if p + 3 ≤ s.length then s[p + 3]?.getD NUL else INVALID_CHAR) := by
  unfold readAccidentals
  by_cases h3 : p + 3 ≤ s.length
  · have e2 : strAt s (p + 2) = some (s[p + 2]?.getD NUL) := strAt_of_le (by omega)
    have e3 : strAt s (p + 3) = some (s[p + 3]?.getD NUL) := strAt_of_le h3
    simp only [ge_iff_le, h3, if_true, e2, e3]
  · have hlen : s.length = p + 2 := by omega
    have e2 : strAt s (p + 2) = some (s[p + 2]?.getD NUL) := strAt_of_le (by omega)
    have h32 : ¬ p + 3 ≤ p + 2 := by omega
    simp only [ge_iff_le, hlen, h32, if_false, if_true, e2]

/-- With the first letter `L` at `p` and an octave digit `O` at `p + 1`, `parseTone` builds
the note from `L`, `O` and the checked accidental candidates. -/
theorem parseTone_of_octave {s : List Char} {p : Nat} {L O : Char} (n : Option Note)
    (hL : FirstLetterAt s p L) (hO : s[p + 1]? = some O) (hd : IsOctaveDigit O) :
    parseTone n s =
      .note (buildNote n L O
        (checkAccidentals (s[p + 2]?.getD NUL)
          (if p + 3 ≤ s.length then s[p + 3]?.getD NUL else INVALID_CHAR)).1
        (checkAccidentals (s[p + 2]?.getD NUL)
          (if p + 3 ≤ s.length then s[p + 3]?.getD NUL else INVALID_CHAR)).2) := by
  have hlen : p + 1 < s.length := length_of_getElem? hO
  have hok : ¬ (O.toNat < 48 ∨ O.toNat > 56) := (octave_ok_iff O).mpr hd
  unfold parseTone
  simp only [find_first_of_of_first hL, strAt_of_getElem? hL.1, strAt_of_getElem? hO,
    ge_iff_le, Nat.le_of_lt hlen, if_true, hok, if_false,
    readAccidentals_eq (Nat.succ_le_of_lt hlen)]

/-- With the first letter at `p` and no octave digit at `p + 1`, `parseTone` returns
`NULL`. -/
theorem parseTone_of_no_octave {s : List Char} {p : Nat} {L : Char} (n : Option Note)
    (hL : FirstLetterAt s p L) (hO : ¬ ∃ O, s[p + 1]? = some O ∧ IsOctaveDigit O) :
    parseTone n s = .null := by
  have hlen : p < s.length := length_of_getElem? hL.1
  have e1 : strAt s (p + 1) = some (s[p + 1]?.getD NUL) := strAt_of_le hlen
  unfold parseTone
  simp only [find_first_of_of_first hL, strAt_of_getElem? hL.1, ge_iff_le,
    Nat.succ_le_of_lt hlen, if_true, e1]
  have hbad : (s[p + 1]?.getD NUL).toNat < 48 ∨ (s[p + 1]?.getD NUL).toNat > 56 := by
    by_contra hok
    have hdig : IsOctaveDigit (s[p + 1]?.getD NUL) := (octave_ok_iff _).mp hok
    cases hget : s[p + 1]? with
    | none =>
      rw [hget] at hdig
      exact absurd hdig (by decide)
    | some O =>
      rw [hget] at hdig
      exact hO ⟨O, hget, hdig⟩
  simp only [hbad, if_true]

theorem parseTone_of_no_letter (n : Option Note) {s : List Char}
    (h : ∀ c ∈ s, c ∉ letterChars) : parseTone n s = .null := by
  unfold parseTone
  simp only [(find_first_of_none_iff s letterChars).mpr h]

/-! ## The claims on `parseTone` -/

/-- C1: when the first character of the input from `{A..G}` is `L` at position `p` and the
character at `p + 1` is a digit `O` in `'0'..'8'`, `parseTone` with no existing Note
succeeds, and the tone is `L,O,a,a` when the character `a` at `p + 2` is `'b'` or `'#'` and
the character at `p + 3` exists and equals `a`; it is `L,O,a` when `a` at `p + 2` is `'b'`
or `'#'` and the character at `p + 3` is absent or differs from `a`; it is `L,O,'n'` in
every other case (the character at `p + 2` is `'n'`, another character, or absent). -/
theorem parseTone_accidental_normalisation (s : List Char) (p : Nat) (L O : Char)
    (hL : FirstLetterAt s p L) (hO : s[p + 1]? = some O) (hd : IsOctaveDigit O) :
    (∀ a, (a = 'b' ∨ a = '#') → s[p + 2]? = some a → s[p + 3]? = some a →
        parseTone none s = .note ⟨[L, O, a, a]⟩) ∧
    (∀ a, (a = 'b' ∨ a = '#') → s[p + 2]? = some a → s[p + 3]? ≠ some a →
        parseTone none s = .note ⟨[L, O, a]⟩) ∧
    (s[p + 2]? ≠ some 'b' ∧ s[p + 2]? ≠ some '#' →
        parseTone none s = .note ⟨[L, O, 'n']⟩) := by
  rw [parseTone_of_octave none hL hO hd]
  refine ⟨?_, ?_, ?_⟩
  · intro a ha h2 h3
    have hlen : p + 3 ≤ s.length := Nat.le_of_lt (length_of_getElem? h3)
    rw [h2, h3, if_pos hlen]
    rcases ha with rfl | rfl <;> simp [checkAccidentals, buildNote, INVALID_CHAR, NUL]
  · intro a ha h2 h3
    rw [h2]
    by_cases hlen : p + 3 ≤ s.length
    · rw [if_pos hlen]
      cases hget : s[p + 3]? with
      | none => rcases ha with rfl | rfl <;> simp [checkAccidentals, buildNote, INVALID_CHAR, NUL]
      | some c =>
        have hc : c ≠ a := fun hca => h3 (by rw [hget, hca])
        rcases ha with rfl | rfl <;>
          simp [checkAccidentals, buildNote, INVALID_CHAR, hc]
    · rw [if_neg hlen]
      rcases ha with rfl | rfl <;> simp [checkAccidentals, buildNote, INVALID_CHAR, NUL]
  · rintro ⟨hb, hs⟩
    cases hget : s[p + 2]? with
    | none => simp [checkAccidentals, buildNote, INVALID_CHAR, NUL]
    | some a =>
      have hab : a ≠ 'b' := fun h => hb (by rw [hget, h])
      have has : a ≠ '#' := fun h => hs (by rw [hget, h])
      by_cases han : a = 'n'
      · subst han
        simp [checkAccidentals, buildNote, INVALID_CHAR]
      · simp [checkAccidentals, buildNote, INVALID_CHAR, hab, has, han]

theorem parseTone_accidental_normalisation_witness :
    parseTone none ['x', 'G', '3', 'b', 'b', 'z'] = .note ⟨['G', '3', 'b', 'b']⟩ ∧
    parseTone none ['F', '8', '#', 'b'] = .note ⟨['F', '8', '#']⟩ ∧
    parseTone none ['?', 'C', '0', 'x', '#'] = .note ⟨['C', '0', 'n']⟩ :=
  ⟨(parseTone_accidental_normalisation ['x', 'G', '3', 'b', 'b', 'z'] 1 'G' '3'
      (by decide) (by decide) (by decide)).1 'b' (Or.inl rfl) (by decide) (by decide),
   (parseTone_accidental_normalisation ['F', '8', '#', 'b'] 0 'F' '8'
      (by decide) (by decide) (by decide)).2.1 '#' (Or.inr rfl) (by decide) (by decide),
   (parseTone_accidental_normalisation ['?', 'C', '0', 'x', '#'] 1 'C' '0'
      (by decide) (by decide) (by decide)).2.2 ⟨by decide, by decide⟩⟩

/-- C2: when the first character of the input from `{A..G}` is at position `p`, `parseTone`
returns `NULL` if and only if the character at `p + 1` does not exist or is not one of the
digits `'0'..'8'`, and otherwise it returns a Note, whatever the accidental characters are;
the input `"A"` fails and an octave of `'9'` fails. -/
theorem parseTone_null_iff_no_octave (n : Option Note) (s : List Char) (p : Nat) (L : Char)
    (hL : FirstLetterAt s p L) :
    (parseTone n s = .null ↔ ¬ ∃ O, s[p + 1]? = some O ∧ IsOctaveDigit O) ∧
    ((∃ O, s[p + 1]? = some O ∧ IsOctaveDigit O) → ∃ t, parseTone n s = .note t) ∧
    parseTone none ['A'] = .null ∧ parseTone none ['A', '9'] = .null := by
  refine ⟨⟨?_, parseTone_of_no_octave n hL⟩, ?_, by decide, by decide⟩
  · rintro hnull ⟨O, hO, hd⟩
    rw [parseTone_of_octave n hL hO hd] at hnull
    exact ParseResult.noConfusion hnull
  · rintro ⟨O, hO, hd⟩
    exact ⟨_, parseTone_of_octave n hL hO hd⟩

theorem parseTone_null_iff_no_octave_witness :
    FirstLetterAt ['z', 'B', '9', 'b'] 1 'B' ∧
    (parseTone none ['z', 'B', '9', 'b'] = .null ↔
      ¬ ∃ O, ['z', 'B', '9', 'b'][1 + 1]? = some O ∧ IsOctaveDigit O) :=
  ⟨by decide, (parseTone_null_iff_no_octave none ['z', 'B', '9', 'b'] 1 'B' (by decide)).1⟩

/-- C3: for every input that contains none of the characters A, B, C, D, E, F, G,
`parseTone` returns `NULL` and produces no tone; so it does for `"123"`, for the empty
string and for the lowercase `"a4"`. -/
theorem parseTone_null_of_no_letter (n : Option Note) (s : List Char)
    (h : ∀ c ∈ s, c ∉ letterChars) :
    parseTone n s = .null ∧ parseTone none ['1', '2', '3'] = .null ∧
      parseTone none [] = .null ∧ parseTone none ['a', '4'] = .null :=
  ⟨parseTone_of_no_letter n h, by decide, by decide, by decide⟩

theorem parseTone_null_of_no_letter_witness :
    (∀ c ∈ ['1', '2', '3'], c ∉ letterChars) ∧ parseTone none ['1', '2', '3'] = .null :=
  ⟨by decide, (parseTone_null_of_no_letter none ['1', '2', '3'] (by decide)).1⟩

/-- C4: for every letter `L` in `{A..G}` and every octave digit `O` in `'0'..'8'`,
`parseTone` on the two-character input `L,O` succeeds with the three-character tone
`L,O,'n'`. -/
theorem parseTone_letter_octave (L O : Char) (hL : L ∈ letterChars) (hd : IsOctaveDigit O) :
    parseTone none [L, O] = .note ⟨[L, O, 'n']⟩ := by
  have hfirst : FirstLetterAt [L, O] 0 L := ⟨rfl, hL, by simp⟩
  rw [parseTone_of_octave none hfirst rfl hd]
  simp [checkAccidentals, buildNote, INVALID_CHAR, NUL]

theorem parseTone_letter_octave_witness :
    'E' ∈ letterChars ∧ IsOctaveDigit '8' ∧
      parseTone none ['E', '8'] = .note ⟨['E', '8', 'n']⟩ :=
  ⟨by decide, by decide, parseTone_letter_octave 'E' '8' (by decide) (by decide)⟩

/-- C5, as the code behaves: on the input `"Gb3#"` the character after the first letter is
`'b'`, not an octave digit, and `parseTone` returns `NULL`; it does not yield `"G3b"`. -/
theorem parseTone_Gb3sharp_null :
    parseTone none ['G', 'b', '3', '#'] = .null ∧
      parseTone none ['G', 'b', '3', '#'] ≠ .note ⟨['G', '3', 'b']⟩ := by
  decide

/-- C5, amended: on the input `"G3b#"` (octave right after the letter, a sharp candidate
after a flat) `parseTone` succeeds, keeps the first candidate `'b'`, replaces the second
candidate `'#'` by `INVALID_CHAR` because it differs, and yields the tone `"G3b"`. -/
theorem parseTone_G3bsharp :
    checkAccidentals 'b' '#' = ('b', INVALID_CHAR) ∧
      parseTone none ['G', '3', 'b', '#'] = .note ⟨['G', '3', 'b']⟩ := by
  decide

/-! ## Lemmas on `tone2freq` -/

theorem letterKey_eq_specOffset {L : Char} (hL : L ∈ letterChars) :
    letterKey L = some (specOffset L) := by
  simp only [letterChars, List.mem_cons, List.mem_singleton, List.not_mem_nil,
    or_false] at hL
  rcases hL with h | h | h | h | h | h | h <;> subst h <;> decide

theorem letterKey_eq_none_iff (c : Char) : letterKey c = none ↔ c ∉ letterChars := by
  constructor
  · intro h hc
    rw [letterKey_eq_specOffset hc] at h
    exact Option.noConfusion h
  · intro h
    simp only [letterChars, List.mem_cons, List.mem_singleton, List.not_mem_nil,
      or_false, not_or] at h
    obtain ⟨h1, h2, h3, h4, h5, h6, h7⟩ := h
    simp [letterKey, h1, h2, h3, h4, h5, h6, h7]

theorem firstAccidental_eq_specAdj (key : Int) {a : Char} (ha : a ∈ accidentalChars) :
    firstAccidental key a = some (key + specAdj a) := by
  simp only [accidentalChars, List.mem_cons, List.mem_singleton, List.not_mem_nil,
    or_false] at ha
  rcases ha with h | h | h <;> subst h <;> simp [firstAccidental, specAdj, Int.sub_eq_add_neg]

theorem firstAccidental_eq_none_iff (key : Int) (c : Char) :
    firstAccidental key c = none ↔ c ∉ accidentalChars := by
  constructor
  · intro h hc
    rw [firstAccidental_eq_specAdj key hc] at h
    exact Option.noConfusion h
  · intro h
    simp only [accidentalChars, List.mem_cons, List.mem_singleton, List.not_mem_nil,
      or_false, not_or] at h
    obtain ⟨h1, h2, h3⟩ := h
    simp [firstAccidental, h1, h2, h3]

theorem secondAccidental_eq_none_iff (key : Int) {c : Char} (hc : c ∈ accidentalChars) :
    secondAccidental key c = none ↔ c = 'n' := by
  simp only [accidentalChars, List.mem_cons, List.mem_singleton, List.not_mem_nil,
    or_false] at hc
  rcases hc with h | h | h <;> subst h <;> simp [secondAccidental]

theorem charToInt_of_lt {c : Char} (h : c.toNat < 128) : charToInt c = (c.toNat : Int) := by
  have hmod : c.toNat % 256 = c.toNat := Nat.mod_eq_of_lt (by omega)
  unfold charToInt
  rw [hmod, if_pos h]

theorem charToInt_digit {o : Nat} (ho : o ≤ 9) :
    charToInt (Char.ofNat (48 + o)) = 48 + (o : Int) := by
  have hnat : (Char.ofNat (48 + o)).toNat = 48 + o := by
    interval_cases o <;> rfl
  rw [charToInt_of_lt (by omega), hnat]
  push_cast
  rfl

/-- A returned frequency expression stands for a positive real. -/
theorem Ret.IsReal_freq_pos {key : Int} {x : ℝ} (h : (Ret.freq key).IsReal x) : 0 < x := by
  have hx : x = 440 * (2 : ℝ) ^ (((key : ℝ) - 48) / 12) := h
  rw [hx]
  have hp : (0 : ℝ) < (2 : ℝ) ^ (((key : ℝ) - 48) / 12) :=
    Real.rpow_pos_of_pos (by norm_num) _
  positivity

/-- The key index 48 stands for 440 exactly. -/
theorem Ret.IsReal_freq_48 : (Ret.freq 48).IsReal 440 := by
  show (440 : ℝ) = 440 * (2 : ℝ) ^ ((((48 : Int) : ℝ) - 48) / 12)
  norm_num

/-! ## The claims on `tone2freq` -/

/-- C6: for every three-character tone `L,O,a` with `L` in `{A..G}`, `O` the digit character
of value `o` in `0..8` and `a` in `{b,n,#}`, the key index `tone2freq` computes is
`offset(L) + 12*o + adj(a)`, with the offsets A=0, B=2, C=−9, D=−7, E=−5, F=−4, G=−2 and the
adjustments b=−1, n=0, #=+1, and the value returned is `440 * 2^((key − 48)/12)` as a real
number. -/
theorem tone2freq_formula (L O a : Char) (o : Nat) (hL : L ∈ letterChars) (ho : o ≤ 8)
    (hO : O = Char.ofNat (48 + o)) (ha : a ∈ accidentalChars) :
    tone2freq (some ⟨[L, O, a]⟩) = .freq (specOffset L + 12 * (o : Int) + specAdj a) ∧
    (tone2freq (some ⟨[L, O, a]⟩)).IsReal
      (440 * (2 : ℝ) ^ ((((specOffset L + 12 * (o : Int) + specAdj a : Int) : ℝ) - 48) / 12))
    := by
  have hkey : tone2freq (some ⟨[L, O, a]⟩)
      = .freq (specOffset L + 12 * (o : Int) + specAdj a) := by
    subst hO
    simp [tone2freq, letterKey_eq_specOffset hL, firstAccidental_eq_specAdj _ ha,
      charToInt_digit (Nat.le_succ_of_le ho)]
  refine ⟨hkey, ?_⟩
  rw [hkey]
  rfl

theorem tone2freq_formula_witness :
    tone2freq (some ⟨['C', '3', '#']⟩) = .freq (specOffset 'C' + 12 * ((3 : Nat) : Int)
      + specAdj '#') ∧ specOffset 'C' + 12 * ((3 : Nat) : Int) + specAdj '#' = 28 :=
  ⟨(tone2freq_formula 'C' '3' '#' 3 (by decide) (by decide) (by decide) (by decide)).1,
    by decide⟩

/-- C7: for the input `"A4"` `parseTone` yields the tone `"A4n"`, `tone2freq` on that tone
computes the key index 48 and returns exactly 440; and every tone whose key index is 48
converts to exactly 440. -/
theorem tone2freq_A4 :
    parseTone none ['A', '4'] = .note ⟨['A', '4', 'n']⟩ ∧
    tone2freq (some ⟨['A', '4', 'n']⟩) = .freq 48 ∧
    (tone2freq (some ⟨['A', '4', 'n']⟩)).IsReal 440 ∧
    ∀ n : Option Note, tone2freq n = .freq 48 → ∀ x, (tone2freq n).IsReal x ↔ x = 440 := by
  have hA4 : tone2freq (some ⟨['A', '4', 'n']⟩) = .freq 48 := by decide
  refine ⟨by decide, hA4, ?_, ?_⟩
  · rw [hA4]
    exact Ret.IsReal_freq_48
  · intro n hn x
    rw [hn]
    constructor
    · intro hx
      have h440 : (Ret.freq 48).IsReal 440 := Ret.IsReal_freq_48
      exact Eq.trans hx h440.symm
    · intro hx
      rw [hx]
      exact Ret.IsReal_freq_48

theorem tone2freq_A4_witness :
    tone2freq (some ⟨['G', '4', '#', '#']⟩) = .freq 48 ∧
      (tone2freq (some ⟨['G', '4', '#', '#']⟩)).IsReal 440 :=
  ⟨by decide, (tone2freq_A4.2.2.2 (some ⟨['G', '4', '#', '#']⟩) (by decide) 440).mpr rfl⟩

/-- The twelfth power of the value returned for the key index −9. -/
theorem freq_C0_pow_twelve :
    (440 * (2 : ℝ) ^ ((((-9 : Int) : ℝ) - 48) / 12)) ^ 12 = 440 ^ 12 / 2 ^ 57 := by
  have h2 : ((2 : ℝ) ^ ((((-9 : Int) : ℝ) - 48) / 12)) ^ 12 = (2 ^ 57)⁻¹ := by
    rw [← Real.rpow_natCast ((2 : ℝ) ^ ((((-9 : Int) : ℝ) - 48) / 12)) 12,
      ← Real.rpow_mul (by norm_num)]
    have h : ((((-9 : Int) : ℝ) - 48) / 12) * ((12 : ℕ) : ℝ) = -((57 : ℕ) : ℝ) := by
      push_cast
      norm_num
    rw [h, Real.rpow_neg (by norm_num), Real.rpow_natCast]
  rw [mul_pow, h2]
  rfl

/-- The value returned for the key index −9 lies in `[16.345, 16.355)`. -/
theorem freq_C0_bounds :
    (16.345 : ℝ) ≤ 440 * (2 : ℝ) ^ ((((-9 : Int) : ℝ) - 48) / 12) ∧
      440 * (2 : ℝ) ^ ((((-9 : Int) : ℝ) - 48) / 12) < 16.355 := by
  have hpos : (0 : ℝ) ≤ 440 * (2 : ℝ) ^ ((((-9 : Int) : ℝ) - 48) / 12) := by positivity
  constructor
  · apply le_of_pow_le_pow_left₀ (by norm_num : (12 : ℕ) ≠ 0) hpos
    rw [freq_C0_pow_twelve]
    norm_num
  · apply lt_of_pow_lt_pow_left₀ 12 (by norm_num)
    rw [freq_C0_pow_twelve]
    norm_num

/-- C8, as the code behaves: the value `tone2freq` returns for the tone `"C0n"` does not
round to 12.98 at two decimal places: no real in `[12.975, 12.985]` is that value. -/
theorem tone2freq_C0_not_12_98 :
    ¬ ∃ x : ℝ, (tone2freq (some ⟨['C', '0', 'n']⟩)).IsReal x ∧ 12.975 ≤ x ∧ x ≤ 12.985 := by
  rintro ⟨x, hx, _, hhi⟩
  have hkey : tone2freq (some ⟨['C', '0', 'n']⟩) = .freq (-9) := by decide
  rw [hkey] at hx
  have hval : x = 440 * (2 : ℝ) ^ ((((-9 : Int) : ℝ) - 48) / 12) := hx
  have hlo := freq_C0_bounds.1
  rw [← hval] at hlo
  norm_num at hlo hhi
  linarith

/-- C8, amended: for the input `"C0"` `parseTone` yields `"C0n"`; `tone2freq` on that tone
computes the key index −9 and returns `440 * 2^((−9 − 48)/12)`, and this value rounds to
16.35 at two decimal places (it lies in `[16.345, 16.355)`). -/
theorem tone2freq_C0 :
    parseTone none ['C', '0'] = .note ⟨['C', '0', 'n']⟩ ∧
    tone2freq (some ⟨['C', '0', 'n']⟩) = .freq (-9 + 0) ∧
    (tone2freq (some ⟨['C', '0', 'n']⟩)).IsReal (440 * (2 : ℝ) ^ (((-9 : ℝ) - 48) / 12)) ∧
    (16.345 : ℝ) ≤ 440 * (2 : ℝ) ^ (((-9 : ℝ) - 48) / 12) ∧
    440 * (2 : ℝ) ^ (((-9 : ℝ) - 48) / 12) < 16.355 := by
  have hkey : tone2freq (some ⟨['C', '0', 'n']⟩) = .freq (-9) := by decide
  have hcast : (((-9 : Int) : ℝ)) = (-9 : ℝ) := by norm_num
  have hb := freq_C0_bounds
  rw [hcast] at hb
  refine ⟨by decide, hkey, ?_, hb.1, hb.2⟩
  rw [hkey]
  show _ = 440 * (2 : ℝ) ^ ((((-9 : Int) : ℝ) - 48) / 12)
  rw [hcast]

theorem tone2freq_cons3 (c0 c1 c2 : Char) (rest : List Char) :
    tone2freq (some ⟨c0 :: c1 :: c2 :: rest⟩) =
      match letterKey c0 with
      | none => .err
      | some key =>
        match firstAccidental (key + 12 * (charToInt c1 - 48)) c2 with
        | none => .err
        | some key =>
          if rest.length = 1 then
            match secondAccidental key c2 with
            | none => .err
            | some key => .freq key
          else .freq key := by
  simp [tone2freq]

theorem tone2freq_err_iff (n : Option Note) : tone2freq n = .err ↔ ToneRejected n := by
  cases n with
  | none => simp [tone2freq, ToneRejected]
  | some note =>
    obtain ⟨tone⟩ := note
    match tone with
    | [] => simp [tone2freq, ToneRejected]
    | [_] => simp [tone2freq, ToneRejected]
    | [_, _] => simp [tone2freq, ToneRejected]
    | c0 :: c1 :: c2 :: rest =>
      rw [tone2freq_cons3]
      have hrej : ToneRejected (some ⟨c0 :: c1 :: c2 :: rest⟩) ↔
          c0 ∉ letterChars ∨ c2 ∉ accidentalChars ∨ (rest.length = 1 ∧ c2 = 'n') := by
        have e : ∀ (l : List Char) (c : Char), (∀ L ∈ l, ¬ c = L) ↔ c ∉ l :=
          fun l c => ⟨fun h hc => h c hc rfl, fun h L hL hcL => h (hcL ▸ hL)⟩
        have hlen : ¬ rest.length + 1 + 1 + 1 < 3 := by omega
        simp [ToneRejected, e, hlen]
      rw [hrej]
      by_cases h0 : c0 ∈ letterChars
      · simp only [letterKey_eq_specOffset h0]
        by_cases h2 : c2 ∈ accidentalChars
        · simp only [firstAccidental_eq_specAdj _ h2]
          by_cases h4 : rest.length = 1
          · have hsec := secondAccidental_eq_none_iff
              (specOffset c0 + 12 * (charToInt c1 - 48) + specAdj c2) h2
            cases hs : secondAccidental
                (specOffset c0 + 12 * (charToInt c1 - 48) + specAdj c2) c2 with
            | none =>
              have hn : c2 = 'n' := hsec.mp hs
              simp [h4, hn]
            | some k =>
              have hn : c2 ≠ 'n' := fun h => by
                rw [hsec.mpr h] at hs
                exact Option.noConfusion hs
              simp [h0, h2, h4, hn]
          · simp [h0, h2, h4]
        · have hnone := (firstAccidental_eq_none_iff
            (specOffset c0 + 12 * (charToInt c1 - 48)) c2).mpr h2
          simp [hnone, h2]
      · have hnone := (letterKey_eq_none_iff c0).mpr h0
        simp [hnone, h0]

/-! ## The canonical tones and re-parsing -/

theorem firstLetterAt_of_find {s : List Char} {p : Nat}
    (h : find_first_of s letterChars = some p) : ∃ L, FirstLetterAt s p L := by
  obtain ⟨⟨L, hL, hmem⟩, hmin⟩ := (find_first_of_some_iff s letterChars p).mp h
  refine ⟨L, hL, hmem, ?_⟩
  intro c hc
  obtain ⟨i, hi⟩ := List.mem_iff_getElem?.mp hc
  have hip : i < p := by
    have hlt : i < (s.take p).length := length_of_getElem? hi
    rw [List.length_take] at hlt
    omega
  rw [List.getElem?_take_of_lt hip] at hi
  exact hmin i c hip hi

/-- A call of `parseTone` that returns a Note found a first letter and an octave digit
right after it. -/
theorem parseTone_note_inv {n : Option Note} {s : List Char} {m : Note}
    (h : parseTone n s = .note m) :
    ∃ p L O, FirstLetterAt s p L ∧ s[p + 1]? = some O ∧ IsOctaveDigit O := by
  cases hf : find_first_of s letterChars with
  | none =>
    rw [parseTone_of_no_letter n ((find_first_of_none_iff s letterChars).mp hf)] at h
    exact ParseResult.noConfusion h
  | some p =>
    obtain ⟨L, hL⟩ := firstLetterAt_of_find hf
    by_cases hO : ∃ O, s[p + 1]? = some O ∧ IsOctaveDigit O
    · obtain ⟨O, hO1, hO2⟩ := hO
      exact ⟨p, L, O, hL, hO1, hO2⟩
    · rw [parseTone_of_no_octave n hL hO] at h
      exact ParseResult.noConfusion h

/-- The five outcomes of the `switch` on the first accidental candidate. -/
theorem checkAccidentals_cases (a1 a2 : Char) :
    checkAccidentals a1 a2 = ('b', 'b') ∨ checkAccidentals a1 a2 = ('b', INVALID_CHAR) ∨
    checkAccidentals a1 a2 = ('n', INVALID_CHAR) ∨ checkAccidentals a1 a2 = ('#', '#') ∨
    checkAccidentals a1 a2 = ('#', INVALID_CHAR) := by
  unfold checkAccidentals
  by_cases hb : a1 = 'b'
  · by_cases hb2 : a2 = 'b'
    · simp [hb, hb2]
    · simp [hb, hb2]
  · by_cases hn : a1 = 'n'
    · simp [hn]
    · by_cases hs : a1 = '#'
      · by_cases hs2 : a2 = '#'
        · simp [hs, hs2]
        · simp [hs, hs2]
      · simp [hb, hn, hs]

/-- The tone a successful `parseTone` call with no existing Note produces has one of the
five canonical shapes. -/
theorem parseTone_canonical {s t : List Char} (h : parseTone none s = .note ⟨t⟩) :
    ∃ L O, L ∈ letterChars ∧ IsOctaveDigit O ∧
      (t = [L, O, 'b', 'b'] ∨ t = [L, O, 'b'] ∨ t = [L, O, 'n'] ∨
        t = [L, O, '#', '#'] ∨ t = [L, O, '#']) := by
  obtain ⟨p, L, O, hL, hO, hd⟩ := parseTone_note_inv h
  refine ⟨L, O, hL.2.1, hd, ?_⟩
  rw [parseTone_of_octave none hL hO hd] at h
  have ht := congrArg Note.tone (ParseResult.note.inj h)
  simp only at ht
  rw [← ht]
  rcases checkAccidentals_cases (s[p + 2]?.getD NUL)
      (if p + 3 ≤ s.length then s[p + 3]?.getD NUL else INVALID_CHAR)
    with hc | hc | hc | hc | hc <;> rw [hc] <;> simp [buildNote, INVALID_CHAR]

/-- Every canonical tone parses to itself. -/
theorem parseTone_of_canonical {L O : Char} {t : List Char} (hL : L ∈ letterChars)
    (hd : IsOctaveDigit O)
    (ht : t = [L, O, 'b', 'b'] ∨ t = [L, O, 'b'] ∨ t = [L, O, 'n'] ∨
      t = [L, O, '#', '#'] ∨ t = [L, O, '#']) :
    parseTone none t = .note ⟨t⟩ := by
  rcases ht with ht | ht | ht | ht | ht <;> subst ht
  all_goals
    first
    | (rw [parseTone_of_octave (s := [L, O, 'b', 'b']) (p := 0) none ⟨rfl, hL, by simp⟩ rfl hd]
       simp [checkAccidentals, buildNote, INVALID_CHAR, NUL])
    | (rw [parseTone_of_octave (s := [L, O, 'b']) (p := 0) none ⟨rfl, hL, by simp⟩ rfl hd]
       simp [checkAccidentals, buildNote, INVALID_CHAR, NUL])
    | (rw [parseTone_of_octave (s := [L, O, 'n']) (p := 0) none ⟨rfl, hL, by simp⟩ rfl hd]
       simp [checkAccidentals, buildNote, INVALID_CHAR, NUL])
    | (rw [parseTone_of_octave (s := [L, O, '#', '#']) (p := 0) none ⟨rfl, hL, by simp⟩ rfl hd]
       simp [checkAccidentals, buildNote, INVALID_CHAR, NUL])
    | (rw [parseTone_of_octave (s := [L, O, '#']) (p := 0) none ⟨rfl, hL, by simp⟩ rfl hd]
       simp [checkAccidentals, buildNote, INVALID_CHAR, NUL])

/-- C10: for every input `s` on which `parseTone` with no existing Note succeeds with the
tone `t`, `parseTone` on `t` with no existing Note also succeeds and yields exactly `t`;
the 3-character tone `"A4n"` and the 4-character tones `"A4bb"` and `"A4##"` parse to
themselves. -/
theorem parseTone_idempotent (s t : List Char) (h : parseTone none s = .note ⟨t⟩) :
    parseTone none t = .note ⟨t⟩ ∧
    parseTone none ['A', '4', 'n'] = .note ⟨['A', '4', 'n']⟩ ∧
    parseTone none ['A', '4', 'b', 'b'] = .note ⟨['A', '4', 'b', 'b']⟩ ∧
    parseTone none ['A', '4', '#', '#'] = .note ⟨['A', '4', '#', '#']⟩ := by
  obtain ⟨L, O, hL, hd, ht⟩ := parseTone_canonical h
  exact ⟨parseTone_of_canonical hL hd ht, by decide, by decide, by decide⟩

theorem parseTone_idempotent_witness :
    parseTone none ['x', 'D', '5', '#', '#', 'q'] = .note ⟨['D', '5', '#', '#']⟩ ∧
      parseTone none ['D', '5', '#', '#'] = .note ⟨['D', '5', '#', '#']⟩ :=
  ⟨by decide,
    (parseTone_idempotent ['x', 'D', '5', '#', '#', 'q'] ['D', '5', '#', '#'] (by decide)).1⟩

/-! ## The key index of a tone -/

/-- The key index of a three-character tone. -/
theorem tone2freq_three {L a : Char} (O : Char) (hL : L ∈ letterChars)
    (ha : a ∈ accidentalChars) :
    tone2freq (some ⟨[L, O, a]⟩) =
      .freq (specOffset L + 12 * (charToInt O - 48) + specAdj a) := by
  rw [tone2freq_cons3]
  simp [letterKey_eq_specOffset hL, firstAccidental_eq_specAdj _ ha]

/-- The key index of a four-character tone whose third character is `b` or `#`: the
adjustment of the third character is applied twice, whatever the fourth character is. -/
theorem tone2freq_four {L a : Char} (O c : Char) (hL : L ∈ letterChars)
    (ha : a = 'b' ∨ a = '#') :
    tone2freq (some ⟨[L, O, a, c]⟩) =
      .freq (specOffset L + 12 * (charToInt O - 48) + 2 * specAdj a) := by
  rw [tone2freq_cons3]
  rcases ha with rfl | rfl
  · simp only [letterKey_eq_specOffset hL, firstAccidental, secondAccidental, specAdj]
    simp
    omega
  · simp only [letterKey_eq_specOffset hL, firstAccidental, secondAccidental, specAdj]
    simp
    omega

/-- The key index of a tone of at least 5 characters: only the first three count. -/
theorem tone2freq_long {L a : Char} (O : Char) (rest : List Char) (hL : L ∈ letterChars)
    (ha : a ∈ accidentalChars) (hrest : 2 ≤ rest.length) :
    tone2freq (some ⟨L :: O :: a :: rest⟩) =
      .freq (specOffset L + 12 * (charToInt O - 48) + specAdj a) := by
  rw [tone2freq_cons3]
  have hne : rest.length ≠ 1 := by omega
  simp [letterKey_eq_specOffset hL, firstAccidental_eq_specAdj _ ha, hne]

/-- Twelve more in the key index doubles the real value of the returned expression. -/
theorem Ret.IsReal_freq_add_twelve {key : Int} {x y : ℝ} (hx : (Ret.freq key).IsReal x)
    (hy : (Ret.freq (key + 12)).IsReal y) : y = 2 * x := by
  have ex : x = 440 * (2 : ℝ) ^ (((key : ℝ) - 48) / 12) := hx
  have ey : y = 440 * (2 : ℝ) ^ ((((key + 12 : Int) : ℝ) - 48) / 12) := hy
  have harg : ((((key + 12 : Int) : ℝ) - 48) / 12) = ((key : ℝ) - 48) / 12 + 1 := by
    push_cast
    ring
  rw [ey, ex, harg, Real.rpow_add_one (by norm_num)]
  ring

theorem specOffset_bounds {L : Char} (hL : L ∈ letterChars) :
    -9 ≤ specOffset L ∧ specOffset L ≤ 2 := by
  simp only [letterChars, List.mem_cons, List.mem_singleton, List.not_mem_nil,
    or_false] at hL
  rcases hL with h | h | h | h | h | h | h <;> subst h <;> decide

theorem octave_value_bounds {O : Char} (hd : IsOctaveDigit O) :
    48 ≤ charToInt O ∧ charToInt O ≤ 56 := by
  have h := (octave_ok_iff O).mpr hd
  rw [charToInt_of_lt (by omega)]
  omega

theorem octave_step_of_keys {n1 n2 : Option Note} {k1 k2 : Int}
    (h1 : tone2freq n1 = .freq k1) (h2 : tone2freq n2 = .freq k2) (hk : k2 = k1 + 12) :
    ∃ key, tone2freq n1 = .freq key ∧ tone2freq n2 = .freq (key + 12) ∧
      ∀ x y, (tone2freq n1).IsReal x → (tone2freq n2).IsReal y → y = 2 * x := by
  subst hk
  refine ⟨k1, h1, h2, ?_⟩
  intro x y hx hy
  rw [h1] at hx
  rw [h2] at hy
  exact Ret.IsReal_freq_add_twelve hx hy

/-! ## The claims on octaves, duplicated accidentals and canonical tones -/

/-- C11: for every letter `L` in `{A..G}`, every accidental form (`b`, `n`, `#`, `bb`,
`##`) and every octave `o` in `0..7`, the key index `tone2freq` computes for the tone at
octave `o + 1` is exactly 12 more than for the same letter and accidental at octave `o`,
and the returned frequency, as a real number, is exactly 2 times the frequency at octave
`o`. -/
theorem tone2freq_octave_step (L O O' : Char) (acc : List Char) (o : Nat)
    (hL : L ∈ letterChars) (hacc : acc ∈ accidentalForms) (ho : o ≤ 7)
    (hO : O = Char.ofNat (48 + o)) (hO' : O' = Char.ofNat (48 + (o + 1))) :
    ∃ key, tone2freq (some ⟨L :: O :: acc⟩) = .freq key ∧
      tone2freq (some ⟨L :: O' :: acc⟩) = .freq (key + 12) ∧
      ∀ x y, (tone2freq (some ⟨L :: O :: acc⟩)).IsReal x →
        (tone2freq (some ⟨L :: O' :: acc⟩)).IsReal y → y = 2 * x := by
  have e1 : charToInt O = 48 + o := by
    rw [hO, charToInt_digit (by omega)]
  have e2 : charToInt O' = 48 + o + 1 := by
    rw [hO', charToInt_digit (by omega)]
    push_cast
    ring
  simp only [accidentalForms, List.mem_cons, List.mem_singleton, List.not_mem_nil,
    or_false] at hacc
  rcases hacc with h | h | h | h | h <;> subst h
  · exact octave_step_of_keys (tone2freq_three O hL (by decide))
      (tone2freq_three O' hL (by decide)) (by rw [e1, e2]; ring)
  · exact octave_step_of_keys (tone2freq_three O hL (by decide))
      (tone2freq_three O' hL (by decide)) (by rw [e1, e2]; ring)
  · exact octave_step_of_keys (tone2freq_three O hL (by decide))
      (tone2freq_three O' hL (by decide)) (by rw [e1, e2]; ring)
  · exact octave_step_of_keys (tone2freq_four O 'b' hL (Or.inl rfl))
      (tone2freq_four O' 'b' hL (Or.inl rfl)) (by rw [e1, e2]; ring)
  · exact octave_step_of_keys (tone2freq_four O '#' hL (Or.inr rfl))
      (tone2freq_four O' '#' hL (Or.inr rfl)) (by rw [e1, e2]; ring)

theorem tone2freq_octave_step_witness :
    tone2freq (some ⟨['F', '3', '#', '#']⟩) = .freq 34 ∧
    tone2freq (some ⟨['F', '4', '#', '#']⟩) = .freq 46 ∧
    ∃ key, tone2freq (some ⟨'F' :: '3' :: ['#', '#']⟩) = .freq key ∧
      tone2freq (some ⟨'F' :: '4' :: ['#', '#']⟩) = .freq (key + 12) ∧
      ∀ x y, (tone2freq (some ⟨'F' :: '3' :: ['#', '#']⟩)).IsReal x →
        (tone2freq (some ⟨'F' :: '4' :: ['#', '#']⟩)).IsReal y → y = 2 * x :=
  ⟨by decide, by decide,
    tone2freq_octave_step 'F' '3' '4' ['#', '#'] 3 (by decide) (by decide) (by decide)
      (by decide) (by decide)⟩

/-- C12: for every four-character tone `L,O,a,c` with `L` in `{A..G}`, `O` the digit
character of value `o` and `a` in `{b,#}`, the key index is
`offset(L) + 12*o + 2*adj(a)` for every fourth character `c`: the second adjustment reads
the third character again and never the fourth, so `"A4b#"` converts to the same frequency
as `"A4bb"`. -/
theorem tone2freq_duplicate_quirk (L O a c : Char) (o : Nat) (hL : L ∈ letterChars)
    (ho : o ≤ 9) (hO : O = Char.ofNat (48 + o)) (ha : a = 'b' ∨ a = '#') :
    tone2freq (some ⟨[L, O, a, c]⟩) =
      .freq (specOffset L + 12 * (o : Int) + 2 * specAdj a) ∧
    tone2freq (some ⟨['A', '4', 'b', '#']⟩) = tone2freq (some ⟨['A', '4', 'b', 'b']⟩) ∧
    tone2freq (some ⟨['A', '4', 'b', '#']⟩) = .freq 46 := by
  refine ⟨?_, by decide, by decide⟩
  rw [tone2freq_four O c hL ha, hO, charToInt_digit ho]
  congr 1
  ring

theorem tone2freq_duplicate_quirk_witness :
    tone2freq (some ⟨['D', '9', '#', '?']⟩) =
      .freq (specOffset 'D' + 12 * ((9 : Nat) : Int) + 2 * specAdj '#') ∧
    specOffset 'D' + 12 * ((9 : Nat) : Int) + 2 * specAdj '#' = 103 :=
  ⟨(tone2freq_duplicate_quirk 'D' '9' '#' '?' 9 (by decide) (by decide) (by decide)
      (Or.inr rfl)).1, by decide⟩

theorem letter_ne_invalid {L : Char} (hL : L ∈ letterChars) : L ≠ INVALID_CHAR := by
  intro h
  subst h
  exact absurd hL (by decide)

theorem digit_ne_invalid {O : Char} (hd : IsOctaveDigit O) : O ≠ INVALID_CHAR := by
  intro h
  subst h
  exact absurd hd (by decide)

/-- C13: every tone produced by a successful `parseTone` call with no existing Note has
length 3 or 4; its first character is in `{A..G}`, its second is a digit in `'0'..'8'`, its
third is in `{b,n,#}`; if its length is 4 then its third character is `'b'` or `'#'` and
its fourth character equals its third; and the placeholder `INVALID_CHAR` never appears in
it. -/
theorem parseTone_canonical_form (s t : List Char) (h : parseTone none s = .note ⟨t⟩) :
    (t.length = 3 ∨ t.length = 4) ∧
    (∃ L, t[0]? = some L ∧ L ∈ letterChars) ∧
    (∃ O, t[1]? = some O ∧ IsOctaveDigit O) ∧
    (∃ a, t[2]? = some a ∧ a ∈ accidentalChars) ∧
    (t.length = 4 → (t[2]? = some 'b' ∨ t[2]? = some '#') ∧ t[3]? = t[2]?) ∧
    INVALID_CHAR ∉ t := by
  obtain ⟨L, O, hL, hd, ht⟩ := parseTone_canonical h
  have hLx := (letter_ne_invalid hL).symm
  have hOx := (digit_ne_invalid hd).symm
  have hb : INVALID_CHAR ≠ 'b' := by decide
  have hn : INVALID_CHAR ≠ 'n' := by decide
  have hs : INVALID_CHAR ≠ '#' := by decide
  rcases ht with ht | ht | ht | ht | ht <;> subst ht <;>
    simp [hL, hd, accidentalChars, hLx, hOx, hb, hn, hs]

theorem parseTone_canonical_form_witness :
    parseTone none ['E', '2', 'b', 'b', 'b'] = .note ⟨['E', '2', 'b', 'b']⟩ ∧
    (['E', '2', 'b', 'b'].length = 4 →
      (['E', '2', 'b', 'b'][2]? = some 'b' ∨ ['E', '2', 'b', 'b'][2]? = some '#') ∧
        ['E', '2', 'b', 'b'][3]? = ['E', '2', 'b', 'b'][2]?) ∧
    INVALID_CHAR ∉ ['E', '2', 'b', 'b'] :=
  ⟨by decide,
    (parseTone_canonical_form ['E', '2', 'b', 'b', 'b'] ['E', '2', 'b', 'b']
      (by decide)).2.2.2.2.1,
    (parseTone_canonical_form ['E', '2', 'b', 'b', 'b'] ['E', '2', 'b', 'b']
      (by decide)).2.2.2.2.2⟩

/-! ## The claims on the surrounding input and on a reused Note -/

theorem substr_getElem? (s : List Char) (p : Nat) {i : Nat} (hi : i < 4) :
    (substr s p 4)[i]? = s[p + i]? := by
  unfold substr
  rw [List.getElem?_take_of_lt hi, List.getElem?_drop]

theorem substr_length (s : List Char) (p : Nat) :
    (substr s p 4).length = min 4 (s.length - p) := by
  simp [substr]

theorem firstLetterAt_substr {s : List Char} {p : Nat} {L : Char}
    (hL : FirstLetterAt s p L) : FirstLetterAt (substr s p 4) 0 L := by
  refine ⟨?_, hL.2.1, by simp⟩
  rw [substr_getElem? s p (by omega)]
  exact hL.1

/-- C14: when the first character of `s` from `{A..G}` is at position `p`, `parseTone` has
the same outcome (`NULL`, or the same tone) on `s` as on the substring of `s` that starts
at `p` and has at most 4 characters; so two inputs with the same such substring have the
same outcome, whatever stands before `p` and after `p + 3`. -/
theorem parseTone_substr (n : Option Note) (s : List Char) (p : Nat) (L : Char)
    (hL : FirstLetterAt s p L) :
    parseTone n s = parseTone n (substr s p 4) ∧
    ∀ (s2 : List Char) (p2 : Nat) (L2 : Char), FirstLetterAt s2 p2 L2 →
      substr s2 p2 4 = substr s p 4 → parseTone n s2 = parseTone n s := by
  have key : ∀ (s : List Char) (p : Nat) (L : Char), FirstLetterAt s p L →
      parseTone n s = parseTone n (substr s p 4) := by
    intro s p L hL
    have hfirst := firstLetterAt_substr hL
    have h1 : (substr s p 4)[0 + 1]? = s[p + 1]? := substr_getElem? s p (by omega)
    have h2 : (substr s p 4)[0 + 2]? = s[p + 2]? := substr_getElem? s p (by omega)
    have h3 : (substr s p 4)[0 + 3]? = s[p + 3]? := substr_getElem? s p (by omega)
    by_cases hO : ∃ O, s[p + 1]? = some O ∧ IsOctaveDigit O
    · obtain ⟨O, hO1, hd⟩ := hO
      rw [parseTone_of_octave n hL hO1 hd,
        parseTone_of_octave n hfirst (h1.trans hO1) hd, h2, h3, substr_length]
      by_cases hlen : p + 3 ≤ s.length
      · have hlen2 : 0 + 3 ≤ min 4 (s.length - p) := by omega
        rw [if_pos hlen, if_pos hlen2]
      · have hlen2 : ¬ 0 + 3 ≤ min 4 (s.length - p) := by omega
        rw [if_neg hlen, if_neg hlen2]
    · have hO2 : ¬ ∃ O, (substr s p 4)[0 + 1]? = some O ∧ IsOctaveDigit O := by
        rw [h1]
        exact hO
      rw [parseTone_of_no_octave n hL hO, parseTone_of_no_octave n hfirst hO2]
  refine ⟨key s p L hL, ?_⟩
  intro s2 p2 L2 hL2 hsub
  rw [key s2 p2 L2 hL2, key s p L hL, hsub]

theorem parseTone_substr_witness :
    substr ['1', '2', 'B', '7', '#', '#', 'A', '0'] 2 4 = ['B', '7', '#', '#'] ∧
    parseTone none ['1', '2', 'B', '7', '#', '#', 'A', '0'] =
      parseTone none (substr ['1', '2', 'B', '7', '#', '#', 'A', '0'] 2 4) :=
  ⟨by decide,
    (parseTone_substr none ['1', '2', 'B', '7', '#', '#', 'A', '0'] 2 'B' (by decide)).1⟩

theorem buildNote_some_tone (old : List Char) (letter octave a1 a2 : Char) :
    (buildNote (some ⟨old⟩) letter octave a1 a2).tone =
      old ++ (buildNote none letter octave a1 a2).tone := by
  unfold buildNote
  by_cases h : a2 = INVALID_CHAR
  · simp [h]
  · simp [h]

/-- With an existing Note, `parseTone` appends the tone of the input to the tone the Note
already holds. -/
theorem parseTone_appends {old s t : List Char} (h : parseTone none s = .note ⟨t⟩) :
    parseTone (some ⟨old⟩) s = .note ⟨old ++ t⟩ := by
  obtain ⟨p, L, O, hL, hO, hd⟩ := parseTone_note_inv h
  rw [parseTone_of_octave none hL hO hd] at h
  have ht := congrArg Note.tone (ParseResult.note.inj h)
  simp only at ht
  rw [parseTone_of_octave (some ⟨old⟩) hL hO hd, ← ht, ← buildNote_some_tone]

/-- C15, as the code behaves: with no Note and with an empty Note the tone returned for
`"C5#"` is `"C5#"`, but with a Note that already holds `"A4n"` the returned Note holds
`"A4nC5#"`: the new characters are appended to the previous contents. -/
theorem parseTone_reused_note :
    parseTone none ['C', '5', '#'] = .note ⟨['C', '5', '#']⟩ ∧
    parseTone (some ⟨[]⟩) ['C', '5', '#'] = .note ⟨['C', '5', '#']⟩ ∧
    parseTone (some ⟨['A', '4', 'n']⟩) ['C', '5', '#'] =
      .note ⟨['A', '4', 'n', 'C', '5', '#']⟩ ∧
    parseTone (some ⟨['A', '4', 'n']⟩) ['C', '5', '#'] ≠ .note ⟨['C', '5', '#']⟩ := by
  decide

/-- C16: for every input on which `parseTone` with no existing Note succeeds, `tone2freq`
on the resulting Note does not return the error value −1; it returns
`440 * 2^((key − 48)/12)` with `key` between −11 (reached by `"C0bb"`) and 100 (reached by
`"B8##"`), a strictly positive real. -/
theorem parse_then_convert (s : List Char) (m : Note) (h : parseTone none s = .note m) :
    (∃ key, tone2freq (some m) = .freq key ∧ -11 ≤ key ∧ key ≤ 100 ∧
      ¬ (tone2freq (some m)).IsReal (-1) ∧ ∀ x, (tone2freq (some m)).IsReal x → 0 < x) ∧
    parseTone none ['C', '0', 'b', 'b'] = .note ⟨['C', '0', 'b', 'b']⟩ ∧
    tone2freq (some ⟨['C', '0', 'b', 'b']⟩) = .freq (-11) ∧
    parseTone none ['B', '8', '#', '#'] = .note ⟨['B', '8', '#', '#']⟩ ∧
    tone2freq (some ⟨['B', '8', '#', '#']⟩) = .freq 100 := by
  refine ⟨?_, by decide, by decide, by decide, by decide⟩
  obtain ⟨t⟩ := m
  obtain ⟨L, O, hL, hd, ht⟩ := parseTone_canonical h
  have hoff := specOffset_bounds hL
  have hoct := octave_value_bounds hd
  have hb : specAdj 'b' = -1 := by decide
  have hn : specAdj 'n' = 0 := by decide
  have hs : specAdj '#' = 1 := by decide
  have hkey : ∃ key, tone2freq (some ⟨t⟩) = .freq key ∧ -11 ≤ key ∧ key ≤ 100 := by
    rcases ht with ht | ht | ht | ht | ht <;> subst ht
    · exact ⟨_, tone2freq_four O 'b' hL (Or.inl rfl), by omega, by omega⟩
    · exact ⟨_, tone2freq_three O hL (by decide), by omega, by omega⟩
    · exact ⟨_, tone2freq_three O hL (by decide), by omega, by omega⟩
    · exact ⟨_, tone2freq_four O '#' hL (Or.inr rfl), by omega, by omega⟩
    · exact ⟨_, tone2freq_three O hL (by decide), by omega, by omega⟩
  obtain ⟨key, hk, hlo, hhi⟩ := hkey
  refine ⟨key, hk, hlo, hhi, ?_, ?_⟩
  · intro hneg
    rw [hk] at hneg
    have hpos := Ret.IsReal_freq_pos hneg
    norm_num at hpos
  · intro x hx
    rw [hk] at hx
    exact Ret.IsReal_freq_pos hx

theorem parse_then_convert_witness :
    parseTone none ['z', 'C', '0', 'b', 'b', 'b'] = .note ⟨['C', '0', 'b', 'b']⟩ ∧
    ∃ key, tone2freq (some ⟨['C', '0', 'b', 'b']⟩) = .freq key ∧ -11 ≤ key ∧ key ≤ 100 ∧
      ¬ (tone2freq (some ⟨['C', '0', 'b', 'b']⟩)).IsReal (-1) ∧
      ∀ x, (tone2freq (some ⟨['C', '0', 'b', 'b']⟩)).IsReal x → 0 < x :=
  ⟨by decide,
    (parse_then_convert ['z', 'C', '0', 'b', 'b', 'b'] ⟨['C', '0', 'b', 'b']⟩
      (by decide)).1⟩

/-! ## The claims on index safety, enharmonic tones and over-long tones -/

/-- C17: every character read `s[i]` that `parseTone` performs has `i ≤ s.size()`, for
every input, the empty string and a string that ends in its first letter included: the
call never comes out as an undefined read, and each of the reads at `p`, `p + 1`, `p + 2`,
`p + 3` is defined where the code performs it. So the size test before the octave read is
true whenever a letter was found, and when the octave passed its range test the size is at
least `p + 3` or equal to `p + 2`: the last `else` branch is not reached. -/
theorem parseTone_index_safe (n : Option Note) (s : List Char) :
    parseTone n s ≠ .undefined ∧
    (∀ p, find_first_of s letterChars = some p →
      p ≤ s.length ∧ p + 1 ≤ s.length ∧ s.length ≥ p + 1 ∧
      (s.length ≥ p + 3 → p + 2 ≤ s.length ∧ p + 3 ≤ s.length) ∧
      (s.length = p + 2 → p + 2 ≤ s.length) ∧
      ∀ O, strAt s (p + 1) = some O → ¬ (O.toNat < 48 ∨ O.toNat > 56) →
        s.length ≥ p + 3 ∨ s.length = p + 2) ∧
    parseTone none [] = .null ∧ parseTone none ['1', 'A'] = .null := by
  refine ⟨?_, ?_, by decide, by decide⟩
  · cases hf : find_first_of s letterChars with
    | none =>
      rw [parseTone_of_no_letter n ((find_first_of_none_iff s letterChars).mp hf)]
      exact fun h => ParseResult.noConfusion h
    | some p =>
      obtain ⟨L, hL⟩ := firstLetterAt_of_find hf
      by_cases hO : ∃ O, s[p + 1]? = some O ∧ IsOctaveDigit O
      · obtain ⟨O, hO1, hd⟩ := hO
        rw [parseTone_of_octave n hL hO1 hd]
        exact fun h => ParseResult.noConfusion h
      · rw [parseTone_of_no_octave n hL hO]
        exact fun h => ParseResult.noConfusion h
  · intro p hf
    obtain ⟨L, hL⟩ := firstLetterAt_of_find hf
    have hp : p < s.length := length_of_getElem? hL.1
    refine ⟨by omega, by omega, by omega, fun h => by omega, fun h => by omega, ?_⟩
    intro O hO hrange
    by_contra hlen
    have hlast : p + 1 = s.length := by omega
    have hnul : strAt s (p + 1) = some NUL := by
      unfold strAt
      simp [hlast]
    rw [hnul] at hO
    have hON : O = NUL := (Option.some.inj hO).symm
    rw [hON] at hrange
    exact hrange (Or.inl (by decide))

theorem parseTone_index_safe_witness :
    find_first_of ['1', 'A', '4'] letterChars = some 1 ∧
    strAt ['1', 'A', '4'] (1 + 1) = some '4' ∧
    (['1', 'A', '4'].length ≥ 1 + 3 ∨ ['1', 'A', '4'].length = 1 + 2) :=
  ⟨by decide, by decide,
    ((parseTone_index_safe none ['1', 'A', '4']).2.1 1 (by decide)).2.2.2.2.2 '4'
      (by decide) (by decide)⟩

theorem sameKey_of_keys {L1 O1 a1 L2 O2 a2 : Char} (hL1 : L1 ∈ letterChars)
    (ha1 : a1 ∈ accidentalChars) (hL2 : L2 ∈ letterChars) (ha2 : a2 ∈ accidentalChars)
    (h : specOffset L1 + 12 * (charToInt O1 - 48) + specAdj a1 =
      specOffset L2 + 12 * (charToInt O2 - 48) + specAdj a2) :
    SameKey (some ⟨[L1, O1, a1]⟩) (some ⟨[L2, O2, a2]⟩) := by
  unfold SameKey
  rw [tone2freq_three O1 hL1 ha1, tone2freq_three O2 hL2 ha2, h]
  exact ⟨fun h => Ret.noConfusion h, rfl⟩

theorem keyLt_of_keys {L1 O1 a1 L2 O2 a2 : Char} (hL1 : L1 ∈ letterChars)
    (ha1 : a1 ∈ accidentalChars) (hL2 : L2 ∈ letterChars) (ha2 : a2 ∈ accidentalChars)
    (h : specOffset L1 + 12 * (charToInt O1 - 48) + specAdj a1 <
      specOffset L2 + 12 * (charToInt O2 - 48) + specAdj a2) :
    KeyLt (some ⟨[L1, O1, a1]⟩) (some ⟨[L2, O2, a2]⟩) := by
  unfold KeyLt
  rw [tone2freq_three O1 hL1 ha1, tone2freq_three O2 hL2 ha2]
  exact h

/-- C18: for every octave `o` in `0..8` the key indices agree for C#/Db, D#/Eb, F#/Gb,
G#/Ab, A#/Bb, E#/F-natural and Fb/E-natural of the same octave; for every `o` in `0..7`
B# of octave `o` agrees with C-natural of octave `o + 1` and Cb of octave `o + 1` agrees
with B-natural of octave `o`; and within one octave the natural key indices are strictly
increasing in the order C < D < E < F < G < A < B. -/
theorem tone2freq_enharmonic (O O' : Char) (o : Nat) (ho : o ≤ 8)
    (hO : O = Char.ofNat (48 + o)) (hO' : O' = Char.ofNat (48 + (o + 1))) :
    SameKey (some ⟨['C', O, '#']⟩) (some ⟨['D', O, 'b']⟩) ∧
    SameKey (some ⟨['D', O, '#']⟩) (some ⟨['E', O, 'b']⟩) ∧
    SameKey (some ⟨['F', O, '#']⟩) (some ⟨['G', O, 'b']⟩) ∧
    SameKey (some ⟨['G', O, '#']⟩) (some ⟨['A', O, 'b']⟩) ∧
    SameKey (some ⟨['A', O, '#']⟩) (some ⟨['B', O, 'b']⟩) ∧
    SameKey (some ⟨['E', O, '#']⟩) (some ⟨['F', O, 'n']⟩) ∧
    SameKey (some ⟨['F', O, 'b']⟩) (some ⟨['E', O, 'n']⟩) ∧
    (o ≤ 7 → SameKey (some ⟨['B', O, '#']⟩) (some ⟨['C', O', 'n']⟩) ∧
      SameKey (some ⟨['C', O', 'b']⟩) (some ⟨['B', O, 'n']⟩)) ∧
    KeyLt (some ⟨['C', O, 'n']⟩) (some ⟨['D', O, 'n']⟩) ∧
    KeyLt (some ⟨['D', O, 'n']⟩) (some ⟨['E', O, 'n']⟩) ∧
    KeyLt (some ⟨['E', O, 'n']⟩) (some ⟨['F', O, 'n']⟩) ∧
    KeyLt (some ⟨['F', O, 'n']⟩) (some ⟨['G', O, 'n']⟩) ∧
    KeyLt (some ⟨['G', O, 'n']⟩) (some ⟨['A', O, 'n']⟩) ∧
    KeyLt (some ⟨['A', O, 'n']⟩) (some ⟨['B', O, 'n']⟩) := by
  have vA : specOffset 'A' = 0 := by decide
  have vB : specOffset 'B' = 2 := by decide
  have vC : specOffset 'C' = -9 := by decide
  have vD : specOffset 'D' = -7 := by decide
  have vE : specOffset 'E' = -5 := by decide
  have vF : specOffset 'F' = -4 := by decide
  have vG : specOffset 'G' = -2 := by decide
  have vb : specAdj 'b' = -1 := by decide
  have vn : specAdj 'n' = 0 := by decide
  have vs : specAdj '#' = 1 := by decide
  have e1 : charToInt O = 48 + o := by
    rw [hO, charToInt_digit (by omega)]
  refine ⟨?_, ?_, ?_, ?_, ?_, ?_, ?_, ?_, ?_, ?_, ?_, ?_, ?_, ?_⟩
  · exact sameKey_of_keys (by decide) (by decide) (by decide) (by decide) (by omega)
  · exact sameKey_of_keys (by decide) (by decide) (by decide) (by decide) (by omega)
  · exact sameKey_of_keys (by decide) (by decide) (by decide) (by decide) (by omega)
  · exact sameKey_of_keys (by decide) (by decide) (by decide) (by decide) (by omega)
  · exact sameKey_of_keys (by decide) (by decide) (by decide) (by decide) (by omega)
  · exact sameKey_of_keys (by decide) (by decide) (by decide) (by decide) (by omega)
  · exact sameKey_of_keys (by decide) (by decide) (by decide) (by decide) (by omega)
  · intro ho7
    have e2 : charToInt O' = 48 + ((o + 1 : Nat) : Int) := by
      rw [hO', charToInt_digit (by omega)]
    exact ⟨sameKey_of_keys (by decide) (by decide) (by decide) (by decide) (by omega),
      sameKey_of_keys (by decide) (by decide) (by decide) (by decide) (by omega)⟩
  · exact keyLt_of_keys (by decide) (by decide) (by decide) (by decide) (by omega)
  · exact keyLt_of_keys (by decide) (by decide) (by decide) (by decide) (by omega)
  · exact keyLt_of_keys (by decide) (by decide) (by decide) (by decide) (by omega)
  · exact keyLt_of_keys (by decide) (by decide) (by decide) (by decide) (by omega)
  · exact keyLt_of_keys (by decide) (by decide) (by decide) (by decide) (by omega)
  · exact keyLt_of_keys (by decide) (by decide) (by decide) (by decide) (by omega)

theorem tone2freq_enharmonic_witness :
    tone2freq (some ⟨['B', '3', '#']⟩) = .freq 39 ∧
    tone2freq (some ⟨['C', '4', 'n']⟩) = .freq 39 ∧
    SameKey (some ⟨['B', '3', '#']⟩) (some ⟨['C', '4', 'n']⟩) ∧
    SameKey (some ⟨['C', '4', 'b']⟩) (some ⟨['B', '3', 'n']⟩) :=
  ⟨by decide, by decide,
    (tone2freq_enharmonic '3' '4' 3 (by decide) (by decide) (by decide)).2.2.2.2.2.2.2.1
      (by decide)⟩

/-- C19: for every tone of length 5 or more whose first character is in `{A..G}` and whose
third character is in `{b,n,#}`, `tone2freq` succeeds and returns the same value as for
the first three characters of the tone alone; the Note holding `"A4nC5#"` converts as
`"A4n"`. -/
theorem tone2freq_overlong (tone : List Char) (hlen : 5 ≤ tone.length)
    (hL : ∃ L, tone[0]? = some L ∧ L ∈ letterChars)
    (ha : ∃ a, tone[2]? = some a ∧ a ∈ accidentalChars) :
    (∃ key, tone2freq (some ⟨tone⟩) = .freq key ∧
      tone2freq (some ⟨tone.take 3⟩) = .freq key) ∧
    tone2freq (some ⟨['A', '4', 'n', 'C', '5', '#']⟩) = .freq 48 ∧
    tone2freq (some ⟨['A', '4', 'n']⟩) = .freq 48 := by
  refine ⟨?_, by decide, by decide⟩
  match tone, hlen, hL, ha with
  | c0 :: c1 :: c2 :: c3 :: c4 :: rest, _, hL, ha =>
    obtain ⟨L, hL0, hLm⟩ := hL
    obtain ⟨a, ha2, ham⟩ := ha
    have e0 : c0 = L := by simpa using hL0
    have e2 : c2 = a := by simpa using ha2
    subst e0
    subst e2
    refine ⟨_, tone2freq_long c1 (c3 :: c4 :: rest) hLm ham (by simp), ?_⟩
    exact tone2freq_three c1 hLm ham

theorem tone2freq_overlong_witness :
    ∃ key, tone2freq (some ⟨['G', '2', 'b', 'b', 'b']⟩) = .freq key ∧
      tone2freq (some ⟨['G', '2', 'b', 'b', 'b'].take 3⟩) = .freq key :=
  (tone2freq_overlong ['G', '2', 'b', 'b', 'b'] (by decide) ⟨'G', by decide, by decide⟩
    ⟨'b', by decide, by decide⟩).1

/-! ## The `float` returned by `tone2freq` -/

theorem isFloat_zero : IsFloat 0 :=
  ⟨0, 0, by norm_num, by norm_num, by norm_num, by simp⟩

theorem isFloat_least : IsFloat ((2 : ℝ) ^ (-149 : Int)) :=
  ⟨1, -149, by norm_num, by norm_num, by norm_num, by simp⟩

/-- A `float` other than zero has a magnitude of at least 2^(−149). -/
theorem isFloat_abs_ge {f : ℝ} (hf : IsFloat f) (h0 : f ≠ 0) :
    (2 : ℝ) ^ (-149 : Int) ≤ |f| := by
  obtain ⟨m, e, _, he, _, rfl⟩ := hf
  have hm : m ≠ 0 := by
    rintro rfl
    simp at h0
  have hm1 : (1 : ℝ) ≤ |(m : ℝ)| := by
    have hint : (1 : Int) ≤ |m| := Int.one_le_abs hm
    exact_mod_cast hint
  have hpow : (2 : ℝ) ^ (-149 : Int) ≤ (2 : ℝ) ^ e :=
    zpow_le_zpow_right₀ (by norm_num) he
  have hpos : (0 : ℝ) < (2 : ℝ) ^ e := by positivity
  rw [abs_mul, abs_of_pos hpos]
  calc (2 : ℝ) ^ (-149 : Int) ≤ (2 : ℝ) ^ e := hpow
    _ = 1 * (2 : ℝ) ^ e := by ring
    _ ≤ |(m : ℝ)| * (2 : ℝ) ^ e := mul_le_mul_of_nonneg_right hm1 (le_of_lt hpos)

/-- A value below 2^(−150), half the least positive `float`, narrows to zero. -/
theorem narrowsTo_zero {d f : ℝ} (hd0 : 0 ≤ d) (hd : d < (2 : ℝ) ^ (-150 : Int))
    (h : NarrowsTo d f) : f = 0 := by
  by_contra hne
  have hge := isFloat_abs_ge h.1 hne
  have hnear := h.2 0 isFloat_zero
  rw [sub_zero, abs_of_nonneg hd0] at hnear
  have htri : |f| ≤ |d - f| + |d| := by
    have hsub := abs_sub_abs_le_abs_sub f d
    rw [abs_sub_comm f d] at hsub
    linarith
  rw [abs_of_nonneg hd0] at htri
  have h2 : (2 : ℝ) ^ (-149 : Int) = 2 * (2 : ℝ) ^ (-150 : Int) := by
    rw [show (-149 : Int) = -150 + 1 by norm_num, zpow_add_one₀ (by norm_num)]
    ring
  linarith

/-- A value of at least 2^(−149), the least positive `float`, narrows to a positive
`float`. -/
theorem narrowsTo_pos {d f : ℝ} (hd : (2 : ℝ) ^ (-149 : Int) ≤ d) (h : NarrowsTo d f) :
    0 < f := by
  by_contra hle
  have hf : f ≤ 0 := not_lt.mp hle
  have hnear := h.2 _ isFloat_least
  have hp : (0 : ℝ) < (2 : ℝ) ^ (-149 : Int) := by positivity
  rw [abs_of_nonneg (by linarith : (0 : ℝ) ≤ d - f),
    abs_of_nonneg (by linarith : (0 : ℝ) ≤ d - (2 : ℝ) ^ (-149 : Int))] at hnear
  linarith

theorem narrowsTo_nonneg {d f : ℝ} (hd : 0 ≤ d) (h : NarrowsTo d f) : 0 ≤ f := by
  by_contra hlt
  have hf : f < 0 := not_le.mp hlt
  have hnear := h.2 0 isFloat_zero
  rw [sub_zero, abs_of_nonneg hd, abs_of_nonneg (by linarith : (0 : ℝ) ≤ d - f)] at hnear
  linarith

theorem mem_floatCodes (q : Int × Int) :
    q ∈ floatCodes ↔ |q.1| < 16777216 ∧ -149 ≤ q.2 ∧ q.2 ≤ 104 := by
  unfold floatCodes
  rw [Finset.mem_product, Finset.mem_Icc, Finset.mem_Icc, abs_lt]
  constructor
  · rintro ⟨⟨h1, h2⟩, h3, h4⟩
    exact ⟨⟨by omega, by omega⟩, h3, h4⟩
  · rintro ⟨⟨h1, h2⟩, h3, h4⟩
    exact ⟨⟨by omega, by omega⟩, h3, h4⟩

/-- Every value narrows to some `float`: among the finitely many a nearest one exists. -/
theorem narrowsTo_exists (d : ℝ) : ∃ f, NarrowsTo d f := by
  have h00 : ((0 : Int), (0 : Int)) ∈ floatCodes := by
    rw [mem_floatCodes]
    norm_num
  have hne : floatCodes.Nonempty := Exists.intro _ h00
  obtain ⟨me, hme, hmin⟩ :=
    Finset.exists_min_image floatCodes
      (fun q : Int × Int => |d - (q.1 : ℝ) * (2 : ℝ) ^ q.2|) hne
  refine ⟨(me.1 : ℝ) * (2 : ℝ) ^ me.2, ?_, ?_⟩
  · obtain ⟨h1, h2, h3⟩ := (mem_floatCodes me).mp hme
    exact ⟨me.1, me.2, h1, h2, h3, rfl⟩
  · rintro g ⟨m, e, h1, h2, h3, rfl⟩
    exact hmin (m, e) ((mem_floatCodes (m, e)).mpr ⟨h1, h2, h3⟩)

theorem freq_value_pos (key : Int) : 0 < 440 * (2 : ℝ) ^ (((key : ℝ) - 48) / 12) := by
  have hp : (0 : ℝ) < (2 : ℝ) ^ (((key : ℝ) - 48) / 12) :=
    Real.rpow_pos_of_pos (by norm_num) _
  positivity

theorem freq_value_le (key b : Int) (h : key - 48 ≤ 12 * b) :
    440 * (2 : ℝ) ^ (((key : ℝ) - 48) / 12) ≤ 440 * (2 : ℝ) ^ b := by
  have hreal : ((key : ℝ) - 48) / 12 ≤ (b : ℝ) := by
    have hcast : ((key : ℝ) - 48) ≤ 12 * (b : ℝ) := by exact_mod_cast h
    linarith
  have hpow := Real.rpow_le_rpow_of_exponent_le (by norm_num : (1 : ℝ) ≤ 2) hreal
  rw [Real.rpow_intCast] at hpow
  linarith

theorem freq_value_ge (key b : Int) (h : 12 * b ≤ key - 48) :
    440 * (2 : ℝ) ^ b ≤ 440 * (2 : ℝ) ^ (((key : ℝ) - 48) / 12) := by
  have hreal : (b : ℝ) ≤ ((key : ℝ) - 48) / 12 := by
    have hcast : 12 * (b : ℝ) ≤ ((key : ℝ) - 48) := by exact_mod_cast h
    linarith
  have hpow := Real.rpow_le_rpow_of_exponent_le (by norm_num : (1 : ℝ) ≤ 2) hreal
  rw [Real.rpow_intCast] at hpow
  linarith

/-- Every returned expression returns some `float`. -/
theorem Ret.Returns_exists (r : Ret) : ∃ f, r.Returns f := by
  cases r with
  | err => exact ⟨-1, rfl⟩
  | freq key =>
    obtain ⟨f, hf⟩ := narrowsTo_exists (440 * (2 : ℝ) ^ (((key : ℝ) - 48) / 12))
    have hpos := freq_value_pos key
    exact ⟨f, _, by linarith, by linarith, hf⟩

/-- A frequency return is never negative, so it is not the error value. -/
theorem Ret.Returns_freq_nonneg {key : Int} {f : ℝ} (h : (Ret.freq key).Returns f) :
    0 ≤ f := by
  obtain ⟨d, hlo, _, hn⟩ := h
  have hpos := freq_value_pos key
  exact narrowsTo_nonneg (by linarith) hn

/-- A frequency return with a key index of at most −1872 is the `float` zero. -/
theorem Ret.Returns_freq_zero {key : Int} {f : ℝ} (hkey : key ≤ -1872)
    (h : (Ret.freq key).Returns f) : f = 0 := by
  obtain ⟨d, hlo, hhi, hn⟩ := h
  have hpos := freq_value_pos key
  have hle := freq_value_le key (-160) (by omega)
  have e : (2 : ℝ) ^ (-150 : Int) = (2 : ℝ) ^ (-160 : Int) * 1024 := by
    rw [show (-150 : Int) = -160 + 10 by norm_num, zpow_add₀ (by norm_num)]
    norm_num
  have hp : (0 : ℝ) < (2 : ℝ) ^ (-160 : Int) := by positivity
  have hd : d < (2 : ℝ) ^ (-150 : Int) := by
    rw [e]
    generalize (2 : ℝ) ^ (-160 : Int) = P at hle hp
    linarith
  exact narrowsTo_zero (by linarith) hd hn

/-- A frequency return with a key index of at least −587 is a positive `float`. -/
theorem Ret.Returns_freq_pos {key : Int} {f : ℝ} (hkey : -587 ≤ key)
    (h : (Ret.freq key).Returns f) : 0 < f := by
  obtain ⟨d, hlo, _, hn⟩ := h
  have hge := freq_value_ge key (-53) (by omega)
  have e : (2 : ℝ) ^ (-53 : Int) = (2 : ℝ) ^ (-149 : Int) * (2 : ℝ) ^ (96 : Int) := by
    rw [← zpow_add₀ (by norm_num)]
    norm_num
  have hp : (0 : ℝ) < (2 : ℝ) ^ (-149 : Int) := by positivity
  have h96 : (1 : ℝ) ≤ (2 : ℝ) ^ (96 : Int) := one_le_zpow₀ (by norm_num) (by norm_num)
  have hd : (2 : ℝ) ^ (-149 : Int) ≤ d := by
    rw [e] at hge
    generalize (2 : ℝ) ^ (-149 : Int) = Q at hge hp ⊢
    generalize (2 : ℝ) ^ (96 : Int) = R at hge h96
    nlinarith
  exact narrowsTo_pos hd hn

theorem toneRejected_cons3 (c0 c1 c2 : Char) (rest : List Char) :
    ToneRejected (some ⟨c0 :: c1 :: c2 :: rest⟩) ↔
      c0 ∉ letterChars ∨ c2 ∉ accidentalChars ∨ (rest.length = 1 ∧ c2 = 'n') := by
  have e : ∀ (l : List Char) (c : Char), (∀ L ∈ l, ¬ c = L) ↔ c ∉ l :=
    fun l c => ⟨fun h hc => h c hc rfl, fun h L hL hcL => h (hcL ▸ hL)⟩
  have hlen : ¬ rest.length + 1 + 1 + 1 < 3 := by omega
  simp [ToneRejected, e, hlen]

theorem specAdj_bounds (a : Char) : -1 ≤ specAdj a ∧ specAdj a ≤ 1 := by
  unfold specAdj
  split
  · exact ⟨by norm_num, by norm_num⟩
  · split
    · exact ⟨by norm_num, by norm_num⟩
    · exact ⟨by norm_num, by norm_num⟩

/-- The key index of a tone that is not rejected lies within 11 below and 4 above twelve
times the octave value. -/
theorem tone2freq_key_bounds (tone : List Char) (h : ¬ ToneRejected (some ⟨tone⟩)) :
    ∃ key, tone2freq (some ⟨tone⟩) = .freq key ∧
      -11 + 12 * (charToInt (tone.getD 1 NUL) - 48) ≤ key ∧
      key ≤ 4 + 12 * (charToInt (tone.getD 1 NUL) - 48) := by
  match tone, h with
  | [], h => exact absurd (by simp [ToneRejected]) h
  | [_], h => exact absurd (by simp [ToneRejected]) h
  | [_, _], h => exact absurd (by simp [ToneRejected]) h
  | c0 :: c1 :: c2 :: rest, h =>
    rw [toneRejected_cons3] at h
    have h0 : c0 ∈ letterChars := by
      by_contra hc
      exact h (Or.inl hc)
    have h2 : c2 ∈ accidentalChars := by
      by_contra hc
      exact h (Or.inr (Or.inl hc))
    have hoff := specOffset_bounds h0
    have hadj := specAdj_bounds c2
    have hget : (c0 :: c1 :: c2 :: rest).getD 1 NUL = c1 := rfl
    rw [hget]
    match rest, h with
    | [], _ => exact ⟨_, tone2freq_three c1 h0 h2, by omega, by omega⟩
    | [c3], h =>
      have hn : c2 ≠ 'n' := fun hc => h (Or.inr (Or.inr ⟨rfl, hc⟩))
      have hbs : c2 = 'b' ∨ c2 = '#' := by
        simp only [accidentalChars, List.mem_cons, List.mem_singleton, List.not_mem_nil,
          or_false] at h2
        rcases h2 with hb | hc | hs
        · exact Or.inl hb
        · exact absurd hc hn
        · exact Or.inr hs
      exact ⟨_, tone2freq_four c1 c3 h0 hbs, by omega, by omega⟩
    | c3 :: c4 :: more, _ =>
      exact ⟨_, tone2freq_long c1 (c3 :: c4 :: more) h0 h2 (by simp), by omega, by omega⟩

/-! ## The claim on the failure condition of `tone2freq` -/

/-- C9, as the code behaves: the tone `C`, byte `0x80`, `b` meets none of the five failure
conditions, its octave byte is the `char` −128, so the key index is −2122, and the call
returns the `float` zero: no strictly positive frequency. -/
theorem tone2freq_octave_0x80_returns_zero :
    ¬ ToneRejected (some ⟨['C', Char.ofNat 128, 'b']⟩) ∧
    tone2freq (some ⟨['C', Char.ofNat 128, 'b']⟩) = .freq (-2122) ∧
    (tone2freq (some ⟨['C', Char.ofNat 128, 'b']⟩)).Returns 0 ∧
    ¬ ∃ f, (tone2freq (some ⟨['C', Char.ofNat 128, 'b']⟩)).Returns f ∧ 0 < f := by
  have hkey : tone2freq (some ⟨['C', Char.ofNat 128, 'b']⟩) = .freq (-2122) := by decide
  refine ⟨by decide, hkey, ?_, ?_⟩
  · rw [hkey]
    obtain ⟨f, hf⟩ := Ret.Returns_exists (.freq (-2122))
    have h0 : f = 0 := Ret.Returns_freq_zero (by norm_num) hf
    rw [h0] at hf
    exact hf
  · rintro ⟨f, hf, hpos⟩
    rw [hkey] at hf
    have h0 : f = 0 := Ret.Returns_freq_zero (by norm_num) hf
    rw [h0] at hpos
    exact lt_irrefl 0 hpos

/-- C9, amended: `tone2freq` returns the error value −1 if and only if the Note is null, or
its tone has fewer than 3 characters, or its first character is not in `{A..G}`, or its
third character is not in `{b,n,#}`, or the tone has exactly 4 characters and its third
character is `'n'`; in every other case in which the octave character has a code below
`0x80` (a digit, for one) it returns a strictly positive frequency, never zero. -/
theorem tone2freq_error_iff_rejected (n : Option Note) :
    (∃ f, (tone2freq n).Returns f) ∧
    (∀ f, (tone2freq n).Returns f → (f = -1 ↔ ToneRejected n)) ∧
    (∀ note, n = some note → ¬ ToneRejected n → (note.tone.getD 1 NUL).toNat < 128 →
      ∃ key, tone2freq n = .freq key ∧ ∀ f, (tone2freq n).Returns f → 0 < f) := by
  refine ⟨Ret.Returns_exists _, ?_, ?_⟩
  · intro f hf
    rw [← tone2freq_err_iff]
    cases hr : tone2freq n with
    | err =>
      rw [hr] at hf
      exact ⟨fun _ => rfl, fun _ => hf⟩
    | freq key =>
      rw [hr] at hf
      have hnn := Ret.Returns_freq_nonneg hf
      constructor
      · intro hneg
        rw [hneg] at hnn
        norm_num at hnn
      · intro herr
        exact Ret.noConfusion herr
  · intro note hn hrej hoct
    subst hn
    obtain ⟨tone⟩ := note
    obtain ⟨key, hkey, hlo, _⟩ := tone2freq_key_bounds tone hrej
    refine ⟨key, hkey, ?_⟩
    intro f hf
    rw [hkey] at hf
    have hval : charToInt (tone.getD 1 NUL) = ((tone.getD 1 NUL).toNat : Int) :=
      charToInt_of_lt hoct
    exact Ret.Returns_freq_pos (by omega) hf

theorem tone2freq_error_iff_rejected_witness :
    ¬ ToneRejected (some ⟨['B', '?', '#', '#']⟩) ∧
    (['B', '?', '#', '#'].getD 1 NUL).toNat < 128 ∧
    ∃ key, tone2freq (some ⟨['B', '?', '#', '#']⟩) = .freq key ∧
      ∀ f, (tone2freq (some ⟨['B', '?', '#', '#']⟩)).Returns f → 0 < f :=
  ⟨by decide, by decide,
    (tone2freq_error_iff_rejected (some ⟨['B', '?', '#', '#']⟩)).2.2 ⟨['B', '?', '#', '#']⟩
      rfl (by decide) (by decide)⟩

end AutoMUSic
